import Mathlib

/-!
Verification of the AVL-tree insertion engine in `src/avl.rs`.

The Rust code stores a tree as `BinaryTree<V, (i8, i8)>` whose children have
type `Option<Box<BinaryTree>>`.  We embed the pair "optional boxed subtree"
as one inductive type: `nil` models `None` and `node` models
`Some(box BinaryTree { metadata, value, left, right })`; a Rust `BinaryTree`
value itself corresponds to a tree that is not `nil`.  The `i8` height
metadata and the `i32` values are modelled as unbounded `Int` (the code only
compares values, and height arithmetic stays far below the `i8` range for any
tree that fits in memory).  Every panic point of the source — the `assert!`
and `assert_eq!` calls, the `unreachable!` arms, and the `unwrap()` calls on
an absent child inside the rotations — is modelled by returning `none`, so
"the call returns `some`" states that no internal-consistency abort fires.
-/

namespace Avl

inductive BinaryTree where
  | nil : BinaryTree
  | node (metadata : Int × Int) (value : Int) (left : BinaryTree) (right : BinaryTree) :
      BinaryTree
deriving Repr, DecidableEq

namespace BinaryTree

/-- Height of an (optional) subtree as recorded in its metadata: an absent
child counts 0, a present child counts `max leftHeight rightHeight + 1`.
This is the quantity `std::cmp::max(a, b) + 1` that `fix_metadata` writes. -/
def heightOf : BinaryTree → Int
  | nil => 0
  | node (lh, rh) _ _ _ => max lh rh + 1

/-- Embeds `fn fix_metadata(&mut self)` (src/avl.rs:208-230): recompute this node's
own metadata from the metadata stored in its children, by the source's four
cases (both children, only right, only left, no children). -/
def fix_metadata : BinaryTree → BinaryTree
  | nil => nil
  | node _ v l r =>
    match l, r with
    | node (ll, lr) lv la lb, node (rl, rr) rv ra rb =>
        node (max ll lr + 1, max rl rr + 1) v (node (ll, lr) lv la lb) (node (rl, rr) rv ra rb)
    | nil, node (rl, rr) rv ra rb =>
        node (0, max rl rr + 1) v nil (node (rl, rr) rv ra rb)
    | node (ll, lr) lv la lb, nil =>
        node (max ll lr + 1, 0) v (node (ll, lr) lv la lb) nil
    | nil, nil =>
        node (0, 0) v nil nil

/-- Embeds `fn rotate_left(&mut self)` (src/avl.rs:234-243).  The source shuffles
ownership through a throwaway placeholder node `{metadata: (0,0), value: 0}`
which the final `mem::swap` discards; the net effect on the tree is: the
right child `R` is promoted, the original node becomes `R`'s left child and
receives `R`'s former left subtree as its new right subtree, the displaced
node's metadata is fixed first and the promoted node's after it.  The
`unwrap()` on the right child aborts when there is no right child (`none`). -/
def rotate_left : BinaryTree → Option BinaryTree
  | node md v l (node rmd rv rl rr) =>
      some (fix_metadata (node rmd rv (fix_metadata (node md v l rl)) rr))
  | _ => none

/-- Embeds `fn rotate_right(&mut self)` (src/avl.rs:245-254), mirror image of
`rotate_left`. -/
def rotate_right : BinaryTree → Option BinaryTree
  | node md v (node lmd lv ll lr) r =>
      some (fix_metadata (node lmd lv ll (fix_metadata (node md v lr r))))
  | _ => none

/-- Embeds `fn balance(&mut self)` (src/avl.rs:264-296).  The two `assert!`s on
`difference` and the `unreachable!()` arm are modelled as `none`; the
`match` on the heavy-side child mirrors the source's arms (child missing its
inner grandchild with the outer one present, or both grandchildren present
and the child counter-heavy, trigger the pre-rotation of the double-rotation
case). -/
def balance : BinaryTree → Option BinaryTree
  | nil => none
  | node (lh, rh) v left right =>
    let difference := lh - rh
    if difference ≤ 2 then
      if -2 ≤ difference then
        if difference = 2 then
          let pre : Option BinaryTree :=
            match left with
            | node _ _ nil (node _ _ _ _) => rotate_left left
            | node (a, b) _ (node _ _ _ _) (node _ _ _ _) =>
                if a - b < 0 then rotate_left left else some left
            | _ => some left
          match pre with
          | none => none
          | some left2 => rotate_right (node (lh, rh) v left2 right)
        else if difference = -2 then
          let pre : Option BinaryTree :=
            match right with
            | node _ _ (node _ _ _ _) nil => rotate_right right
            | node (a, b) _ (node _ _ _ _) (node _ _ _ _) =>
                if a - b > 0 then rotate_right right else some right
            | _ => some right
          match pre with
          | none => none
          | some right2 => rotate_left (node (lh, rh) v left right2)
        else if difference < -2 ∧ 2 < difference then none
        else some (node (lh, rh) v left right)
      else none
    else none

/-- The unconditional tail of `insert` (src/avl.rs:199-201): after the match
produced `ret`, the source runs `self.balance(); self.fix_metadata();` and
returns `ret`. -/
def balance_and_fix (t : BinaryTree) (ret : Int) : Option (BinaryTree × Int) :=
  (balance t).map fun t1 => (fix_metadata t1, ret)

/-- Embeds `fn insert(&mut self, new_value: i32) -> i8` (src/avl.rs:136-202).
Returns the updated tree together with the height delta; `none` models an
abort (a failed `assert!`, an `unreachable!`, or a panic inside a rotation).
The source matches its arms in order: leaf (with the duplicate early
`return 0` that skips `balance`/`fix_metadata`), descend left when
`new_value < value` and a left child exists, attach a left leaf when
`new_value < value` and none does, the two symmetric right arms, the
internal duplicate arm, and a final `unreachable!()` arm (dead, because
`<`/`>`/`=` on `i32` is a trichotomy; it is the last `else none` below).
Here the node's shape is split first (leaf / no left child / left child
present) so that the arms are disjoint, and each shape then dispatches on
the comparison exactly as the source's ordered guards do. -/
def insert : BinaryTree → Int → Option (BinaryTree × Int)
  | nil, _ => none
  | node (lh, rh) value nil nil, new_value =>
    -- leaf arm (src/avl.rs:138-167), with the duplicate early `return 0`
    if new_value > value then
      balance_and_fix (node (0, 1) value nil (node (0, 0) new_value nil nil)) 1
    else if new_value = value then
      some (node (lh, rh) value nil nil, 0)
    else
      balance_and_fix (node (1, 0) value (node (0, 0) new_value nil nil) nil) 1
  | node (lh, rh) value nil (node rmd rv ra rb), new_value =>
    -- non-leaf node with no left child
    if new_value < value then
      -- attach a new left leaf after `assert_eq!(0, *left_height)` (src/avl.rs:174-180)
      if lh = 0 then
        balance_and_fix (node (lh + 1, rh) value (node (0, 0) new_value nil nil)
            (node rmd rv ra rb))
          (if lh + 1 = rh + 1 then 1 else 0)
      else none
    else if new_value > value then
      -- recurse into the right child (src/avl.rs:181-186)
      match insert (node rmd rv ra rb) new_value with
      | none => none
      | some (right2, incr) =>
        if incr < 2 then
          balance_and_fix (node (lh, rh + incr) value nil right2)
            (if rh + incr = lh + 1 then incr else 0)
        else none
    else if new_value = value then
      -- internal duplicate (src/avl.rs:194-196)
      balance_and_fix (node (lh, rh) value nil (node rmd rv ra rb)) 0
    else none
  | node (lh, rh) value (node lmd lv la lb) right, new_value =>
    -- non-leaf node with a left child
    if new_value < value then
      -- recurse into the left child (src/avl.rs:168-173)
      match insert (node lmd lv la lb) new_value with
      | none => none
      | some (left2, incr) =>
        if incr < 2 then
          balance_and_fix (node (lh + incr, rh) value left2 right)
            (if lh + incr = rh + 1 then incr else 0)
        else none
    else if new_value > value then
      match right with
      | node a b c d =>
        -- recurse into the right child (src/avl.rs:181-186)
        match insert (node a b c d) new_value with
        | none => none
        | some (right2, incr) =>
          if incr < 2 then
            balance_and_fix (node (lh, rh + incr) value (node lmd lv la lb) right2)
              (if rh + incr = lh + 1 then incr else 0)
          else none
      | nil =>
        -- attach a new right leaf after `assert_eq!(0, *right_height)` (src/avl.rs:187-193)
        if rh = 0 then
          balance_and_fix (node (lh, rh + 1) value (node lmd lv la lb)
              (node (0, 0) new_value nil nil))
            (if rh + 1 = lh + 1 then 1 else 0)
        else none
    else if new_value = value then
      -- internal duplicate (src/avl.rs:194-196)
      balance_and_fix (node (lh, rh) value (node lmd lv la lb) right) 0
    else none

/-! ## Invariants (spec §3) and observation functions -/

/-- The set of values stored in a (sub)tree. -/
def vals : BinaryTree → Finset Int
  | nil => ∅
  | node _ v l r => {v} ∪ vals l ∪ vals r

/-- The multiset of values stored in a (sub)tree (used to state the
uniqueness invariant: no value appears twice). -/
def valsM : BinaryTree → Multiset Int
  | nil => 0
  | node _ v l r => v ::ₘ (valsM l + valsM r)

/-- Every value in the tree is strictly below `bound`. -/
def AllLt : BinaryTree → Int → Prop
  | nil, _ => True
  | node _ v l r, bound => v < bound ∧ AllLt l bound ∧ AllLt r bound

/-- Every value in the tree is strictly above `bound`. -/
def AllGt : BinaryTree → Int → Prop
  | nil, _ => True
  | node _ v l r, bound => bound < v ∧ AllGt l bound ∧ AllGt r bound

/-- Ordering invariant: at every node, every value in its left subtree is
strictly less than the node's value and every value in its right subtree is
strictly greater. -/
def Ordered : BinaryTree → Prop
  | nil => True
  | node _ v l r => AllLt l v ∧ AllGt r v ∧ Ordered l ∧ Ordered r

/-- Height-correctness invariant: at every node, `leftHeight` is 0 if no
left child exists and `1 + max` of the left child's stored heights
otherwise, and symmetrically for `rightHeight`. -/
def HeightCorrect : BinaryTree → Prop
  | nil => True
  | node (lh, rh) _ l r => lh = heightOf l ∧ rh = heightOf r ∧ HeightCorrect l ∧ HeightCorrect r

/-- Balance invariant: at every node, `|leftHeight - rightHeight| ≤ 1`. -/
def Balanced : BinaryTree → Prop
  | nil => True
  | node (lh, rh) _ l r => |lh - rh| ≤ 1 ∧ Balanced l ∧ Balanced r

/-- Uniqueness invariant: no value is stored twice. -/
def Uniqueness (t : BinaryTree) : Prop := (valsM t).Nodup

/-- Balance factor `leftHeight - rightHeight` of a node (0 for an absent
tree). -/
def bf : BinaryTree → Int
  | nil => 0
  | node (lh, rh) _ _ _ => lh - rh

/-- The height of a tree computed recursively from its shape (the spec's
glossary notion: an absent subtree has height 0). -/
def realHeight : BinaryTree → Int
  | nil => 0
  | node _ _ l r => max (realHeight l) (realHeight r) + 1

/-- The three-node AVL tree rooted at 20 with children 10 and 30. -/
def sampleTree : BinaryTree :=
  node (1, 1) 20 (node (0, 0) 10 nil nil) (node (0, 0) 30 nil nil)

/-! ## Basic lemmas about the embedded operations -/

@[simp] theorem heightOf_nil : heightOf nil = 0 := rfl

@[simp] theorem heightOf_node (lh rh : Int) (v : Int) (l r : BinaryTree) :
    heightOf (node (lh, rh) v l r) = max lh rh + 1 := rfl

/-- The function `fix_metadata` rewrites the node's metadata to the pair of its
children's stored heights and leaves everything else alone. -/
theorem fix_metadata_node (md : Int × Int) (v : Int) (l r : BinaryTree) :
    fix_metadata (node md v l r) = node (heightOf l, heightOf r) v l r := by
  rcases l with _ | ⟨⟨ll, lr⟩, lv, la, lb⟩ <;> rcases r with _ | ⟨⟨rl, rr⟩, rv, ra, rb⟩ <;> rfl

/-- Applying `fix_metadata` to a node whose metadata is already correct is the
identity. -/
theorem fix_metadata_id (md : Int × Int) (v : Int) (l r : BinaryTree)
    (h : HeightCorrect (node md v l r)) :
    fix_metadata (node md v l r) = node md v l r := by
  obtain ⟨lh, rh⟩ := md
  obtain ⟨h1, h2, -, -⟩ := h
  rw [fix_metadata_node, h1, h2]

theorem rotate_left_node (md rmd : Int × Int) (v rv : Int) (l rl rr : BinaryTree) :
    rotate_left (node md v l (node rmd rv rl rr)) =
      some (node (max (heightOf l) (heightOf rl) + 1, heightOf rr) rv
        (node (heightOf l, heightOf rl) v l rl) rr) := by
  show some (fix_metadata (node rmd rv (fix_metadata (node md v l rl)) rr)) = _
  rw [fix_metadata_node, fix_metadata_node, heightOf_node]

theorem rotate_right_node (md lmd : Int × Int) (v lv : Int) (ll lr r : BinaryTree) :
    rotate_right (node md v (node lmd lv ll lr) r) =
      some (node (heightOf ll, max (heightOf lr) (heightOf r) + 1) lv
        ll (node (heightOf lr, heightOf r) v lr r)) := by
  show some (fix_metadata (node lmd lv ll (fix_metadata (node md v lr r)))) = _
  rw [fix_metadata_node, fix_metadata_node, heightOf_node]

/-- When the node is within balance (`difference ∈ [-1, 1]`), `balance` does
nothing. -/
theorem balance_id (lh rh : Int) (v : Int) (l r : BinaryTree)
    (h1 : -1 ≤ lh - rh) (h2 : lh - rh ≤ 1) :
    balance (node (lh, rh) v l r) = some (node (lh, rh) v l r) := by
  show (if lh - rh ≤ 2 then _ else _) = _
  rw [if_pos (by omega), if_pos (by omega), if_neg (by omega), if_neg (by omega),
    if_neg (by omega)]

theorem balance_and_fix_eq_some (t : BinaryTree) (ret : Int) (t' : BinaryTree) (d : Int) :
    balance_and_fix t ret = some (t', d) ↔
      ∃ u, balance t = some u ∧ t' = fix_metadata u ∧ d = ret := by
  simp only [balance_and_fix, Option.map_eq_some']
  constructor
  · rintro ⟨u, hu, h⟩
    exact ⟨u, hu, by simpa using congrArg Prod.fst h.symm, by simpa using congrArg Prod.snd h.symm⟩
  · rintro ⟨u, hu, h1, h2⟩
    exact ⟨u, hu, by rw [h1, h2]⟩

/-- Heights stored in a height-correct tree are nonnegative. -/
theorem heightOf_nonneg (t : BinaryTree) (h : HeightCorrect t) : 0 ≤ heightOf t := by
  induction t with
  | nil => simp
  | node md v l r ihl ihr =>
    obtain ⟨lh, rh⟩ := md
    obtain ⟨h1, h2, hl, hr⟩ := h
    have := ihl hl
    have := ihr hr
    simp only [heightOf_node]
    omega

/-- A height-correct tree of positive stored height is a node. -/
theorem ne_nil_of_heightOf_pos (t : BinaryTree) (h : 0 < heightOf t) : t ≠ nil := by
  intro hn; rw [hn] at h; simp at h

theorem allLt_iff (t : BinaryTree) (bound : Int) :
    AllLt t bound ↔ ∀ x ∈ vals t, x < bound := by
  induction t with
  | nil => simp [AllLt, vals]
  | node md v l r ihl ihr =>
    simp only [AllLt, vals, Finset.mem_union, Finset.mem_singleton]
    rw [ihl, ihr]
    constructor
    · rintro ⟨h1, h2, h3⟩ x (⟨rfl | hx⟩ | hx)
      · exact h1
      · exact h2 x hx
      · exact h3 x hx
    · intro h
      exact ⟨h v (Or.inl (Or.inl rfl)), fun x hx => h x (Or.inl (Or.inr hx)),
        fun x hx => h x (Or.inr hx)⟩

theorem allGt_iff (t : BinaryTree) (bound : Int) :
    AllGt t bound ↔ ∀ x ∈ vals t, bound < x := by
  induction t with
  | nil => simp [AllGt, vals]
  | node md v l r ihl ihr =>
    simp only [AllGt, vals, Finset.mem_union, Finset.mem_singleton]
    rw [ihl, ihr]
    constructor
    · rintro ⟨h1, h2, h3⟩ x (⟨rfl | hx⟩ | hx)
      · exact h1
      · exact h2 x hx
      · exact h3 x hx
    · intro h
      exact ⟨h v (Or.inl (Or.inl rfl)), fun x hx => h x (Or.inl (Or.inr hx)),
        fun x hx => h x (Or.inr hx)⟩

theorem allLt_mono (t : BinaryTree) (b c : Int) (h : AllLt t b) (hbc : b ≤ c) :
    AllLt t c := by
  rw [allLt_iff] at h ⊢
  exact fun x hx => lt_of_lt_of_le (h x hx) hbc

theorem allGt_mono (t : BinaryTree) (b c : Int) (h : AllGt t b) (hcb : c ≤ b) :
    AllGt t c := by
  rw [allGt_iff] at h ⊢
  exact fun x hx => lt_of_le_of_lt hcb (h x hx)

@[simp] theorem vals_fix_metadata (t : BinaryTree) : vals (fix_metadata t) = vals t := by
  cases t with
  | nil => rfl
  | node md v l r => rw [fix_metadata_node]; simp [vals]

/-- Rotating left only rearranges the tree: the stored values are unchanged. -/
theorem vals_rotate_left (t t' : BinaryTree) (h : rotate_left t = some t') :
    vals t' = vals t := by
  cases t with
  | nil => simp [rotate_left] at h
  | node md v l r =>
    cases r with
    | nil => simp [rotate_left] at h
    | node rmd rv rl rr =>
      rw [rotate_left_node] at h
      injection h with h
      subst h
      ext x
      simp only [vals, Finset.mem_union, Finset.mem_singleton]
      tauto

/-- Rotating right only rearranges the tree: the stored values are unchanged. -/
theorem vals_rotate_right (t t' : BinaryTree) (h : rotate_right t = some t') :
    vals t' = vals t := by
  cases t with
  | nil => simp [rotate_right] at h
  | node md v l r =>
    cases l with
    | nil => simp [rotate_right] at h
    | node lmd lv ll lr =>
      rw [rotate_right_node] at h
      injection h with h
      subst h
      ext x
      simp only [vals, Finset.mem_union, Finset.mem_singleton]
      tauto

/-- The function `balance` only rearranges the tree: the stored values are unchanged. -/
theorem vals_balance (t t1 : BinaryTree) (h : balance t = some t1) :
    vals t1 = vals t := by
  cases t with
  | nil => simp [balance] at h
  | node md v left right =>
    obtain ⟨lh, rh⟩ := md
    simp only [balance] at h
    split at h
    · -- difference ≤ 2
      split at h
      · -- -2 ≤ difference
        split at h
        · -- difference = 2: optional pre-rotation of the left child, then rotate_right
          have hpre : ∀ left2, (match left with
              | node _ _ nil (node _ _ _ _) => rotate_left left
              | node (a, b) _ (node _ _ _ _) (node _ _ _ _) =>
                  if a - b < 0 then rotate_left left else some left
              | _ => some left) = some left2 → vals left2 = vals left := by
            intro left2 hm
            split at hm
            · exact vals_rotate_left _ _ hm
            · split at hm
              · exact vals_rotate_left _ _ hm
              · injection hm with hm; rw [hm]
            · injection hm with hm; rw [hm]
          split at h
          · exact absurd h (by simp)
          · rename_i left2 hm
            have h2 := vals_rotate_right _ _ h
            rw [h2]
            simp only [vals]
            rw [hpre left2 hm]
        · -- difference ≠ 2
          split at h
          · -- difference = -2: mirror case
            have hpre : ∀ right2, (match right with
                | node _ _ (node _ _ _ _) nil => rotate_right right
                | node (a, b) _ (node _ _ _ _) (node _ _ _ _) =>
                    if a - b > 0 then rotate_right right else some right
                | _ => some right) = some right2 → vals right2 = vals right := by
              intro right2 hm
              split at hm
              · exact vals_rotate_right _ _ hm
              · split at hm
                · exact vals_rotate_right _ _ hm
                · injection hm with hm; rw [hm]
              · injection hm with hm; rw [hm]
            split at h
            · exact absurd h (by simp)
            · rename_i right2 hm
              have h2 := vals_rotate_left _ _ h
              rw [h2]
              simp only [vals]
              rw [hpre right2 hm]
          · -- difference ∈ {-1, 0, 1}
            split at h
            · exact absurd h (by simp)
            · injection h with h; rw [h]
      · exact absurd h (by simp)
    · exact absurd h (by simp)

theorem vals_balance_and_fix (t : BinaryTree) (ret : Int) (t' : BinaryTree) (d : Int)
    (h : balance_and_fix t ret = some (t', d)) : vals t' = vals t := by
  rw [balance_and_fix_eq_some] at h
  obtain ⟨u, hu, rfl, rfl⟩ := h
  rw [vals_fix_metadata]
  exact vals_balance _ _ hu

/-- Whenever `insert` completes, the resulting set of stored values is the
old set together with the new value: nothing is lost, nothing extraneous
(in particular no rotation placeholder) appears. -/
theorem vals_insert (t : BinaryTree) (nv : Int) (t' : BinaryTree) (d : Int)
    (h : insert t nv = some (t', d)) : vals t' = {nv} ∪ vals t := by
  induction t generalizing t' d with
  | nil => simp [insert] at h
  | node md value left right ihl ihr =>
    obtain ⟨lh, rh⟩ := md
    rcases left with _ | ⟨lmd, lv, la, lb⟩
    · rcases right with _ | ⟨rmd, rv, ra, rb⟩
      · -- leaf arm
        simp only [insert] at h
        split at h
        · rw [vals_balance_and_fix _ _ _ _ h]
          ext x
          simp only [vals, Finset.mem_union, Finset.mem_singleton, Finset.not_mem_empty]
          tauto
        · split at h
          · rename_i hgt heq
            rw [Option.some.injEq, Prod.mk.injEq] at h
            obtain ⟨h1, -⟩ := h
            subst h1
            subst heq
            ext x
            simp only [vals, Finset.mem_union, Finset.mem_singleton, Finset.not_mem_empty]
            tauto
          · rw [vals_balance_and_fix _ _ _ _ h]
            ext x
            simp only [vals, Finset.mem_union, Finset.mem_singleton, Finset.not_mem_empty]
            tauto
      · -- left absent, right present
        simp only [insert] at h
        split at h
        · -- nv < value: attach a new left leaf (after the zero-height assert)
          split at h
          · rw [vals_balance_and_fix _ _ _ _ h]
            ext x
            simp only [vals, Finset.mem_union, Finset.mem_singleton, Finset.not_mem_empty]
            tauto
          · exact absurd h (by simp)
        · split at h
          · -- nv > value: recurse into the right child
            split at h
            · exact absurd h (by simp)
            · rename_i right2 incr hrec
              split at h
              · rw [vals_balance_and_fix _ _ _ _ h]
                have := ihr _ _ hrec
                ext x
                simp only [vals, Finset.mem_union, Finset.mem_singleton,
                  Finset.not_mem_empty, this]
                tauto
              · exact absurd h (by simp)
          · split at h
            · -- nv = value: internal duplicate
              rename_i hlt hgt heq
              rw [vals_balance_and_fix _ _ _ _ h]
              subst heq
              ext x
              simp only [vals, Finset.mem_union, Finset.mem_singleton, Finset.not_mem_empty]
              tauto
            · exact absurd h (by simp)
    · -- left present
      rcases right with _ | ⟨rmd, rv, ra, rb⟩
      · -- right absent
        simp only [insert] at h
        split at h
        · -- nv < value: recurse into the left child
          split at h
          · exact absurd h (by simp)
          · rename_i left2 incr hrec
            split at h
            · rw [vals_balance_and_fix _ _ _ _ h]
              have := ihl _ _ hrec
              ext x
              simp only [vals, Finset.mem_union, Finset.mem_singleton,
                Finset.not_mem_empty, this]
              tauto
            · exact absurd h (by simp)
        · split at h
          · -- nv > value: attach a new right leaf
            split at h
            · rw [vals_balance_and_fix _ _ _ _ h]
              ext x
              simp only [vals, Finset.mem_union, Finset.mem_singleton, Finset.not_mem_empty]
              tauto
            · exact absurd h (by simp)
          · split at h
            · -- nv = value: internal duplicate
              rename_i hlt hgt heq
              rw [vals_balance_and_fix _ _ _ _ h]
              subst heq
              ext x
              simp only [vals, Finset.mem_union, Finset.mem_singleton, Finset.not_mem_empty]
              tauto
            · exact absurd h (by simp)
      · -- right present
        simp only [insert] at h
        split at h
        · -- nv < value: recurse into the left child
          split at h
          · exact absurd h (by simp)
          · rename_i left2 incr hrec
            split at h
            · rw [vals_balance_and_fix _ _ _ _ h]
              have := ihl _ _ hrec
              ext x
              simp only [vals, Finset.mem_union, Finset.mem_singleton,
                Finset.not_mem_empty, this]
              tauto
            · exact absurd h (by simp)
        · split at h
          · -- nv > value: recurse into the right child
            split at h
            · exact absurd h (by simp)
            · rename_i right2 incr hrec
              split at h
              · rw [vals_balance_and_fix _ _ _ _ h]
                have := ihr _ _ hrec
                ext x
                simp only [vals, Finset.mem_union, Finset.mem_singleton,
                  Finset.not_mem_empty, this]
                tauto
              · exact absurd h (by simp)
          · split at h
            · -- nv = value: internal duplicate
              rename_i hlt hgt heq
              rw [vals_balance_and_fix _ _ _ _ h]
              subst heq
              ext x
              simp only [vals, Finset.mem_union, Finset.mem_singleton, Finset.not_mem_empty]
              tauto
            · exact absurd h (by simp)

theorem balance_and_fix_of_balance (t u : BinaryTree) (ret : Int)
    (h : balance t = some u) (hu : fix_metadata u = u) :
    balance_and_fix t ret = some (u, ret) := by
  rw [balance_and_fix, h, Option.map_some', hu]

theorem balance_and_fix_of_id (lh rh : Int) (v : Int) (l r : BinaryTree) (ret : Int)
    (h1 : -1 ≤ lh - rh) (h2 : lh - rh ≤ 1) (hH : HeightCorrect (node (lh, rh) v l r)) :
    balance_and_fix (node (lh, rh) v l r) ret = some (node (lh, rh) v l r, ret) :=
  balance_and_fix_of_balance _ _ _ (balance_id lh rh v l r h1 h2) (fix_metadata_id _ _ _ _ hH)

/-- Rebalancing a node whose left side has become two taller than its right:
when the left child is not perfectly even (which is the situation `insert`
creates), `balance` performs the single- or double-rotation and yields a
height-correct, balanced, ordered tree of stored height `rh + 2`, whose
metadata is already exact. -/
theorem balance_heavy_left (rh : Int) (v : Int) (l r : BinaryTree)
    (hH : HeightCorrect (node (rh + 2, rh) v l r))
    (hBl : Balanced l) (hBr : Balanced r)
    (hALt : AllLt l v) (hAGt : AllGt r v)
    (hOl : Ordered l) (hOr : Ordered r)
    (hbf : bf l ≠ 0) :
    ∃ u, balance (node (rh + 2, rh) v l r) = some u ∧
      HeightCorrect u ∧ Balanced u ∧ Ordered u ∧
      heightOf u = rh + 2 ∧ fix_metadata u = u := by
  obtain ⟨hlh, hrh, hHl, hHr⟩ := hH
  have hrpos : 0 ≤ rh := hrh ▸ heightOf_nonneg r hHr
  rcases l with _ | ⟨⟨la, lb⟩, lv, lL, lR⟩
  · simp [heightOf] at hlh; omega
  obtain ⟨hla, hlb, hHlL, hHlR⟩ := hHl
  obtain ⟨hbl, hBlL, hBlR⟩ := hBl
  obtain ⟨hlv, hAlL, hAlR⟩ := hALt
  obtain ⟨hOlLlt, hOlRgt, hOlL, hOlR⟩ := hOl
  have hmax : max la lb + 1 = rh + 2 := by simpa [heightOf] using hlh.symm
  have hbf' : la - lb ≠ 0 := by simpa [bf] using hbf
  rw [abs_le] at hbl
  have hbalance : balance (node (rh + 2, rh) v (node (la, lb) lv lL lR) r) =
      match (match node (la, lb) lv lL lR with
          | node _ _ nil (node _ _ _ _) => rotate_left (node (la, lb) lv lL lR)
          | node (a, b) _ (node _ _ _ _) (node _ _ _ _) =>
              if a - b < 0 then rotate_left (node (la, lb) lv lL lR)
              else some (node (la, lb) lv lL lR)
          | _ => some (node (la, lb) lv lL lR)) with
        | none => none
        | some left2 => rotate_right (node (rh + 2, rh) v left2 r) := by
    simp only [balance]
    rw [if_pos (by omega), if_pos (by omega), if_pos (by omega)]
  rcases (by omega : la = lb + 1 ∨ lb = la + 1) with hcase | hcase
  · -- the left child is itself left-heavy: single right rotation
    have hla' : la = rh + 1 := by omega
    have hlb' : lb = rh := by omega
    have hLne : lL ≠ nil := by
      intro hn
      rw [hn] at hla
      simp only [heightOf_nil] at hla
      omega
    rcases lL with _ | ⟨Lmd, Lv, LL, LR⟩
    · exact absurd rfl hLne
    have hpre : (match node (la, lb) lv (node Lmd Lv LL LR) lR with
        | node _ _ nil (node _ _ _ _) => rotate_left (node (la, lb) lv (node Lmd Lv LL LR) lR)
        | node (a, b) _ (node _ _ _ _) (node _ _ _ _) =>
            if a - b < 0 then rotate_left (node (la, lb) lv (node Lmd Lv LL LR) lR)
            else some (node (la, lb) lv (node Lmd Lv LL LR) lR)
        | _ => some (node (la, lb) lv (node Lmd Lv LL LR) lR)) =
        some (node (la, lb) lv (node Lmd Lv LL LR) lR) := by
      rcases lR with _ | ⟨Rmd, Rv, RL, RR⟩
      · rfl
      · simp only []
        rw [if_neg (by omega)]
    have hb2 : balance (node (rh + 2, rh) v (node (la, lb) lv (node Lmd Lv LL LR) lR) r) =
        rotate_right (node (rh + 2, rh) v (node (la, lb) lv (node Lmd Lv LL LR) lR) r) := by
      rw [hbalance, hpre]
    rw [rotate_right_node] at hb2
    rw [← hla, ← hlb, ← hrh] at hb2
    refine ⟨_, hb2, ?_, ?_, ?_, ?_, ?_⟩
    · exact ⟨hla, rfl, hHlL, hlb, hrh, hHlR, hHr⟩
    · refine ⟨?_, hBlL, ?_, hBlR, hBr⟩
      · rw [abs_le]
        constructor <;> omega
      · rw [abs_le]
        constructor <;> omega
    · exact ⟨hOlLlt, ⟨hlv, hOlRgt, allGt_mono r v lv hAGt (le_of_lt hlv)⟩,
        hOlL, ⟨hAlR, hAGt, hOlR, hOr⟩⟩
    · simp only [heightOf_node]
      omega
    · apply fix_metadata_id
      exact ⟨hla, rfl, hHlL, hlb, hrh, hHlR, hHr⟩
  · -- the left child is right-heavy: Left-Right double rotation
    have hlb' : lb = rh + 1 := by omega
    have hla' : la = rh := by omega
    have hRne : lR ≠ nil := by
      intro hn
      rw [hn] at hlb
      simp only [heightOf_nil] at hlb
      omega
    rcases lR with _ | ⟨⟨ra, rb⟩, w, A, B⟩
    · exact absurd rfl hRne
    obtain ⟨hra, hrb, hHA, hHB⟩ := hHlR
    obtain ⟨hblR, hBA, hBB⟩ := hBlR
    rw [abs_le] at hblR
    have hmaxr : max ra rb + 1 = rh + 1 := by
      have h0 : lb = max ra rb + 1 := by simpa only [heightOf_node] using hlb
      omega
    obtain ⟨hwlt, hAA, hAB⟩ := hAlR
    obtain ⟨hOAlt, hOBgt, hOA, hOB⟩ := hOlR
    obtain ⟨hlvw, hAGtA, hAGtB⟩ := hOlRgt
    have hpre : (match node (la, lb) lv lL (node (ra, rb) w A B) with
        | node _ _ nil (node _ _ _ _) => rotate_left (node (la, lb) lv lL (node (ra, rb) w A B))
        | node (a, b) _ (node _ _ _ _) (node _ _ _ _) =>
            if a - b < 0 then rotate_left (node (la, lb) lv lL (node (ra, rb) w A B))
            else some (node (la, lb) lv lL (node (ra, rb) w A B))
        | _ => some (node (la, lb) lv lL (node (ra, rb) w A B)) ) =
        rotate_left (node (la, lb) lv lL (node (ra, rb) w A B)) := by
      rcases lL with _ | ⟨Lmd, Lv, LL, LR⟩
      · rfl
      · simp only []
        rw [if_pos (by omega)]
    rw [hpre, rotate_left_node] at hbalance
    have hb2 : balance (node (rh + 2, rh) v (node (la, lb) lv lL (node (ra, rb) w A B)) r) =
        rotate_right (node (rh + 2, rh) v
          (node (max lL.heightOf A.heightOf + 1, B.heightOf) w
            (node (lL.heightOf, A.heightOf) lv lL A) B) r) := by
      rw [hbalance]
    rw [rotate_right_node] at hb2
    rw [← hla, ← hra, ← hrb, ← hrh] at hb2
    refine ⟨_, hb2, ?_, ?_, ?_, ?_, ?_⟩
    · exact ⟨rfl, rfl, ⟨hla, hra, hHlL, hHA⟩, ⟨hrb, hrh, hHB, hHr⟩⟩
    · refine ⟨?_, ⟨?_, hBlL, hBA⟩, ⟨?_, hBB, hBr⟩⟩
      · simp only [heightOf_node]
        rw [abs_le]
        constructor <;> omega
      · rw [abs_le]
        constructor <;> omega
      · rw [abs_le]
        constructor <;> omega
    · refine ⟨⟨hlvw, allLt_mono lL lv w hOlLlt (le_of_lt hlvw), hOAlt⟩,
        ⟨hwlt, hOBgt, allGt_mono r v w hAGt (le_of_lt hwlt)⟩,
        ⟨hOlLlt, hAGtA, hOlL, hOA⟩, ⟨hAB, hAGt, hOB, hOr⟩⟩
    · simp only [heightOf_node]
      omega
    · apply fix_metadata_id
      exact ⟨rfl, rfl, ⟨hla, hra, hHlL, hHA⟩, ⟨hrb, hrh, hHB, hHr⟩⟩

/-- Mirror image of `balance_heavy_left`: rebalancing a node whose right
side has become two taller than its left. -/
theorem balance_heavy_right (lh : Int) (v : Int) (l r : BinaryTree)
    (hH : HeightCorrect (node (lh, lh + 2) v l r))
    (hBl : Balanced l) (hBr : Balanced r)
    (hALt : AllLt l v) (hAGt : AllGt r v)
    (hOl : Ordered l) (hOr : Ordered r)
    (hbf : bf r ≠ 0) :
    ∃ u, balance (node (lh, lh + 2) v l r) = some u ∧
      HeightCorrect u ∧ Balanced u ∧ Ordered u ∧
      heightOf u = lh + 2 ∧ fix_metadata u = u := by
  obtain ⟨hlh, hrh, hHl, hHr⟩ := hH
  have hlpos : 0 ≤ lh := hlh ▸ heightOf_nonneg l hHl
  rcases r with _ | ⟨⟨ra, rb⟩, rv, rL, rR⟩
  · simp only [heightOf_nil] at hrh; omega
  obtain ⟨hra, hrb, hHrL, hHrR⟩ := hHr
  obtain ⟨hbr, hBrL, hBrR⟩ := hBr
  obtain ⟨hrv, hArL, hArR⟩ := hAGt
  obtain ⟨hOrLlt, hOrRgt, hOrL, hOrR⟩ := hOr
  have hmax : max ra rb + 1 = lh + 2 := by simpa only [heightOf_node] using hrh.symm
  have hbf' : ra - rb ≠ 0 := by simpa [bf] using hbf
  rw [abs_le] at hbr
  have hbalance : balance (node (lh, lh + 2) v l (node (ra, rb) rv rL rR)) =
      match (match node (ra, rb) rv rL rR with
          | node _ _ (node _ _ _ _) nil => rotate_right (node (ra, rb) rv rL rR)
          | node (a, b) _ (node _ _ _ _) (node _ _ _ _) =>
              if a - b > 0 then rotate_right (node (ra, rb) rv rL rR)
              else some (node (ra, rb) rv rL rR)
          | _ => some (node (ra, rb) rv rL rR)) with
        | none => none
        | some right2 => rotate_left (node (lh, lh + 2) v l right2) := by
    simp only [balance]
    rw [if_pos (by omega), if_pos (by omega), if_neg (by omega), if_pos (by omega)]
  rcases (by omega : rb = ra + 1 ∨ ra = rb + 1) with hcase | hcase
  · -- the right child is itself right-heavy: single left rotation
    have hrb' : rb = lh + 1 := by omega
    have hra' : ra = lh := by omega
    have hRne : rR ≠ nil := by
      intro hn
      rw [hn] at hrb
      simp only [heightOf_nil] at hrb
      omega
    rcases rR with _ | ⟨Rmd, Rv, RL, RR⟩
    · exact absurd rfl hRne
    have hpre : (match node (ra, rb) rv rL (node Rmd Rv RL RR) with
        | node _ _ (node _ _ _ _) nil => rotate_right (node (ra, rb) rv rL (node Rmd Rv RL RR))
        | node (a, b) _ (node _ _ _ _) (node _ _ _ _) =>
            if a - b > 0 then rotate_right (node (ra, rb) rv rL (node Rmd Rv RL RR))
            else some (node (ra, rb) rv rL (node Rmd Rv RL RR))
        | _ => some (node (ra, rb) rv rL (node Rmd Rv RL RR))) =
        some (node (ra, rb) rv rL (node Rmd Rv RL RR)) := by
      rcases rL with _ | ⟨Lmd, Lv, LL, LR⟩
      · rfl
      · simp only []
        rw [if_neg (by omega)]
    have hb2 : balance (node (lh, lh + 2) v l (node (ra, rb) rv rL (node Rmd Rv RL RR))) =
        rotate_left (node (lh, lh + 2) v l (node (ra, rb) rv rL (node Rmd Rv RL RR))) := by
      rw [hbalance, hpre]
    rw [rotate_left_node] at hb2
    rw [← hlh, ← hra, ← hrb] at hb2
    refine ⟨_, hb2, ?_, ?_, ?_, ?_, ?_⟩
    · exact ⟨rfl, hrb, ⟨hlh, hra, hHl, hHrL⟩, hHrR⟩
    · refine ⟨?_, ⟨?_, hBl, hBrL⟩, hBrR⟩
      · rw [abs_le]
        constructor <;> omega
      · rw [abs_le]
        constructor <;> omega
    · exact ⟨⟨hrv, allLt_mono l v rv hALt (le_of_lt hrv), hOrLlt⟩, hOrRgt,
        ⟨hALt, hArL, hOl, hOrL⟩, hOrR⟩
    · simp only [heightOf_node]
      omega
    · apply fix_metadata_id
      exact ⟨rfl, hrb, ⟨hlh, hra, hHl, hHrL⟩, hHrR⟩
  · -- the right child is left-heavy: Right-Left double rotation
    have hra' : ra = lh + 1 := by omega
    have hrb' : rb = lh := by omega
    have hLne : rL ≠ nil := by
      intro hn
      rw [hn] at hra
      simp only [heightOf_nil] at hra
      omega
    rcases rL with _ | ⟨⟨c, d⟩, w, A, B⟩
    · exact absurd rfl hLne
    obtain ⟨hc, hd, hHA, hHB⟩ := hHrL
    obtain ⟨hbrL, hBA, hBB⟩ := hBrL
    rw [abs_le] at hbrL
    have hmaxl : max c d + 1 = lh + 1 := by
      have h0 : ra = max c d + 1 := by simpa only [heightOf_node] using hra
      omega
    obtain ⟨hwgt, hAA, hAB⟩ := hArL
    obtain ⟨hOAlt, hOBgt, hOA, hOB⟩ := hOrL
    obtain ⟨hwrv, hALtA, hALtB⟩ := hOrLlt
    have hpre : (match node (ra, rb) rv (node (c, d) w A B) rR with
        | node _ _ (node _ _ _ _) nil => rotate_right (node (ra, rb) rv (node (c, d) w A B) rR)
        | node (a, b) _ (node _ _ _ _) (node _ _ _ _) =>
            if a - b > 0 then rotate_right (node (ra, rb) rv (node (c, d) w A B) rR)
            else some (node (ra, rb) rv (node (c, d) w A B) rR)
        | _ => some (node (ra, rb) rv (node (c, d) w A B) rR)) =
        rotate_right (node (ra, rb) rv (node (c, d) w A B) rR) := by
      rcases rR with _ | ⟨Rmd, Rv, RL, RR⟩
      · rfl
      · simp only []
        rw [if_pos (by omega)]
    rw [hpre, rotate_right_node] at hbalance
    have hb2 : balance (node (lh, lh + 2) v l (node (ra, rb) rv (node (c, d) w A B) rR)) =
        rotate_left (node (lh, lh + 2) v l
          (node (A.heightOf, max B.heightOf rR.heightOf + 1) w
            A (node (B.heightOf, rR.heightOf) rv B rR))) := by
      rw [hbalance]
    rw [rotate_left_node] at hb2
    rw [← hlh, ← hc, ← hd, ← hrb] at hb2
    refine ⟨_, hb2, ?_, ?_, ?_, ?_, ?_⟩
    · exact ⟨rfl, rfl, ⟨hlh, hc, hHl, hHA⟩, ⟨hd, hrb, hHB, hHrR⟩⟩
    · refine ⟨?_, ⟨?_, hBl, hBA⟩, ⟨?_, hBB, hBrR⟩⟩
      · simp only [heightOf_node]
        rw [abs_le]
        constructor <;> omega
      · rw [abs_le]
        constructor <;> omega
      · rw [abs_le]
        constructor <;> omega
    · refine ⟨⟨hwgt, allLt_mono l v w hALt (le_of_lt hwgt), hOAlt⟩,
        ⟨hwrv, hOBgt, allGt_mono rR rv w hOrRgt (le_of_lt hwrv)⟩,
        ⟨hALt, hAA, hOl, hOA⟩, ⟨hALtB, hOrRgt, hOB, hOrR⟩⟩
    · simp only [heightOf_node]
      omega
    · apply fix_metadata_id
      exact ⟨rfl, rfl, ⟨hlh, hc, hHl, hHA⟩, ⟨hd, hrb, hHB, hHrR⟩⟩

theorem heightOf_leaf (v : Int) : heightOf (node (0, 0) v nil nil) = 1 := rfl

theorem heightCorrect_leaf (v : Int) : HeightCorrect (node (0, 0) v nil nil) :=
  ⟨rfl, rfl, trivial, trivial⟩

theorem balanced_leaf (v : Int) : Balanced (node (0, 0) v nil nil) :=
  ⟨by decide, trivial, trivial⟩

theorem ordered_leaf (v : Int) : Ordered (node (0, 0) v nil nil) :=
  ⟨trivial, trivial, trivial, trivial⟩

/-- In an ordered node, a stored value smaller than the node's value lies in
the left subtree. -/
theorem mem_left_of_lt (md : Int × Int) (value nv : Int) (l r : BinaryTree)
    (hmem : nv ∈ vals (node md value l r)) (hlt : nv < value) (hgt : AllGt r value) :
    nv ∈ vals l := by
  simp only [vals, Finset.mem_union, Finset.mem_singleton] at hmem
  rcases hmem with (h | h) | h
  · omega
  · exact h
  · exact absurd ((allGt_iff r value).mp hgt nv h) (by omega)

/-- In an ordered node, a stored value greater than the node's value lies in
the right subtree. -/
theorem mem_right_of_gt (md : Int × Int) (value nv : Int) (l r : BinaryTree)
    (hmem : nv ∈ vals (node md value l r)) (hgt : value < nv) (hlt : AllLt l value) :
    nv ∈ vals r := by
  simp only [vals, Finset.mem_union, Finset.mem_singleton] at hmem
  rcases hmem with (h | h) | h
  · omega
  · exact absurd ((allLt_iff l value).mp hlt nv h) (by omega)
  · exact h

/-- Inserting a value above the bound into a subtree that is entirely above
the bound keeps it entirely above the bound. -/
theorem allGt_insert (r r2 : BinaryTree) (nv b d : Int)
    (h : insert r nv = some (r2, d)) (hgt : AllGt r b) (hb : b < nv) : AllGt r2 b := by
  rw [allGt_iff]
  intro x hx
  rw [vals_insert _ _ _ _ h, Finset.mem_union, Finset.mem_singleton] at hx
  rcases hx with rfl | hx
  · exact hb
  · exact (allGt_iff r b).mp hgt x hx

/-- Inserting a value below the bound into a subtree that is entirely below
the bound keeps it entirely below the bound. -/
theorem allLt_insert (l l2 : BinaryTree) (nv b d : Int)
    (h : insert l nv = some (l2, d)) (hlt : AllLt l b) (hb : nv < b) : AllLt l2 b := by
  rw [allLt_iff]
  intro x hx
  rw [vals_insert _ _ _ _ h, Finset.mem_union, Finset.mem_singleton] at hx
  rcases hx with rfl | hx
  · exact hb
  · exact (allLt_iff l b).mp hlt x hx

theorem one_le_heightOf_node (md : Int × Int) (v : Int) (l r : BinaryTree)
    (h : HeightCorrect (node md v l r)) : 1 ≤ heightOf (node md v l r) := by
  obtain ⟨mlh, mrh⟩ := md
  obtain ⟨h1, h2, hl, hr⟩ := h
  have := heightOf_nonneg l hl
  have := heightOf_nonneg r hr
  simp only [heightOf_node]
  omega

/-- Master induction for `insert` on a tree satisfying the invariants: the
call always completes (no assert/`unreachable!`/`unwrap` abort), the result
is ordered, height-correct and balanced, the returned delta is in `{0, 1}`
and accounts exactly for the change of the stored root height, a grown
subtree never ends up perfectly even, and inserting a value already present
returns the tree unchanged with delta 0. -/
theorem insert_master (t : BinaryTree) (nv : Int) :
    Ordered t → HeightCorrect t → Balanced t → t ≠ nil →
    ∃ t' d, insert t nv = some (t', d) ∧
      Ordered t' ∧ HeightCorrect t' ∧ Balanced t' ∧
      (d = 0 ∨ d = 1) ∧ heightOf t' = heightOf t + d ∧
      (d = 1 → bf t' ≠ 0) ∧
      (nv ∈ vals t → t' = t ∧ d = 0) := by
  induction t with
  | nil => intro _ _ _ h; exact absurd rfl h
  | node md value left right ihl ihr =>
    intro hO hH hB _
    obtain ⟨lh, rh⟩ := md
    obtain ⟨hALt, hAGt, hOl, hOr⟩ := hO
    obtain ⟨hlh, hrh, hHl, hHr⟩ := hH
    obtain ⟨hbal, hBl, hBr⟩ := hB
    rw [abs_le] at hbal
    rcases left with _ | ⟨lmd, lv, lla, llb⟩
    · rcases right with _ | ⟨rmd, rv, rra, rrb⟩
      · -- leaf node
        have hlh0 : lh = 0 := by simpa using hlh
        have hrh0 : rh = 0 := by simpa using hrh
        rcases lt_trichotomy nv value with hc | hc | hc
        · -- new left leaf
          have hins : insert (node (lh, rh) value nil nil) nv =
              some (node (1, 0) value (node (0, 0) nv nil nil) nil, 1) := by
            simp only [insert]
            rw [if_neg (by omega), if_neg (by omega)]
            exact balance_and_fix_of_id 1 0 value _ nil 1 (by omega) (by omega)
              ⟨(heightOf_leaf nv).symm, rfl, heightCorrect_leaf nv, trivial⟩
          refine ⟨_, _, hins, ?_, ?_, ?_, Or.inr rfl, ?_, ?_, ?_⟩
          · exact ⟨⟨hc, trivial, trivial⟩, trivial, ordered_leaf nv, trivial⟩
          · exact ⟨(heightOf_leaf nv).symm, rfl, heightCorrect_leaf nv, trivial⟩
          · exact ⟨by decide, balanced_leaf nv, trivial⟩
          · simp only [heightOf_node]
            omega
          · intro _
            simp only [bf]
            omega
          · intro hmem
            simp [vals] at hmem
            omega
        · -- duplicate found at the leaf: early return, tree untouched
          have hins : insert (node (lh, rh) value nil nil) nv =
              some (node (lh, rh) value nil nil, 0) := by
            simp only [insert]
            rw [if_neg (by omega), if_pos hc]
          exact ⟨_, _, hins, ⟨trivial, trivial, trivial, trivial⟩, ⟨hlh, hrh, trivial, trivial⟩,
            ⟨by rw [abs_le]; constructor <;> omega, trivial, trivial⟩, Or.inl rfl, by omega,
            fun h => absurd h (by norm_num), fun _ => ⟨rfl, rfl⟩⟩
        · -- new right leaf
          have hins : insert (node (lh, rh) value nil nil) nv =
              some (node (0, 1) value nil (node (0, 0) nv nil nil), 1) := by
            simp only [insert]
            rw [if_pos (by omega)]
            exact balance_and_fix_of_id 0 1 value nil _ 1 (by omega) (by omega)
              ⟨rfl, (heightOf_leaf nv).symm, trivial, heightCorrect_leaf nv⟩
          refine ⟨_, _, hins, ?_, ?_, ?_, Or.inr rfl, ?_, ?_, ?_⟩
          · exact ⟨trivial, ⟨hc, trivial, trivial⟩, trivial, ordered_leaf nv⟩
          · exact ⟨rfl, (heightOf_leaf nv).symm, trivial, heightCorrect_leaf nv⟩
          · exact ⟨by decide, trivial, balanced_leaf nv⟩
          · simp only [heightOf_node]
            omega
          · intro _
            simp only [bf]
            omega
          · intro hmem
            simp [vals] at hmem
            omega
      · -- no left child, right child present
        have hlh0 : lh = 0 := by simpa using hlh
        have hr1 : 1 ≤ heightOf (node rmd rv rra rrb) := one_le_heightOf_node _ _ _ _ hHr
        have hrh1 : rh = 1 := by omega
        rcases lt_trichotomy nv value with hc | hc | hc
        · -- attach a new left leaf
          have hins : insert (node (lh, rh) value nil (node rmd rv rra rrb)) nv =
              some (node (lh + 1, rh) value (node (0, 0) nv nil nil) (node rmd rv rra rrb),
                0) := by
            simp only [insert]
            rw [if_pos hc, if_pos hlh0, if_neg (by omega)]
            exact balance_and_fix_of_id (lh + 1) rh value _ _ 0 (by omega) (by omega)
              ⟨by rw [heightOf_leaf]; omega, hrh, heightCorrect_leaf nv, hHr⟩
          refine ⟨_, _, hins, ?_, ?_, ?_, Or.inl rfl, ?_, ?_, ?_⟩
          · exact ⟨⟨hc, trivial, trivial⟩, hAGt, ordered_leaf nv, hOr⟩
          · exact ⟨by rw [heightOf_leaf]; omega, hrh, heightCorrect_leaf nv, hHr⟩
          · exact ⟨by rw [abs_le]; constructor <;> omega, balanced_leaf nv, hBr⟩
          · simp only [heightOf_node]
            omega
          · exact fun h => absurd h (by norm_num)
          · intro hmem
            have := mem_left_of_lt _ _ _ _ _ hmem hc hAGt
            simp [vals] at this
        · -- internal duplicate
          have hins : insert (node (lh, rh) value nil (node rmd rv rra rrb)) nv =
              some (node (lh, rh) value nil (node rmd rv rra rrb), 0) := by
            simp only [insert]
            rw [if_neg (by omega), if_neg (by omega), if_pos hc]
            exact balance_and_fix_of_id lh rh value _ _ 0 (by omega) (by omega)
              ⟨hlh, hrh, trivial, hHr⟩
          exact ⟨_, _, hins, ⟨trivial, hAGt, trivial, hOr⟩, ⟨hlh, hrh, trivial, hHr⟩,
            ⟨by rw [abs_le]; constructor <;> omega, trivial, hBr⟩, Or.inl rfl, by omega,
            fun h => absurd h (by norm_num), fun _ => ⟨rfl, rfl⟩⟩
        · -- recurse into the right child
          obtain ⟨r2, incr, hrec, hOr2, hHr2, hBr2, hd01, hht, hbf2, hdup2⟩ :=
            ihr hOr hHr hBr nofun
          rcases hd01 with rfl | rfl
          · -- the right subtree did not grow
            have hins : insert (node (lh, rh) value nil (node rmd rv rra rrb)) nv =
                some (node (lh, rh + 0) value nil r2, 0) := by
              simp only [insert]
              rw [if_neg (by omega), if_pos (by omega), hrec]
              simp only []
              rw [if_pos (by norm_num), ite_self]
              exact balance_and_fix_of_id lh (rh + 0) value _ _ 0 (by omega) (by omega)
                ⟨hlh, by rw [hht, ← hrh], trivial, hHr2⟩
            refine ⟨_, _, hins, ?_, ?_, ?_, Or.inl rfl, ?_, ?_, ?_⟩
            · exact ⟨trivial, allGt_insert _ _ _ _ _ hrec hAGt hc, trivial, hOr2⟩
            · exact ⟨hlh, by rw [hht, ← hrh], trivial, hHr2⟩
            · exact ⟨by rw [abs_le]; constructor <;> omega, trivial, hBr2⟩
            · simp only [heightOf_node]
              omega
            · exact fun h => absurd h (by norm_num)
            · intro hmem
              obtain ⟨hr2eq, -⟩ := hdup2 (mem_right_of_gt _ _ _ _ _ hmem hc hALt)
              subst hr2eq
              exact ⟨by rw [add_zero], rfl⟩
          · -- the right subtree grew: the node becomes right-heavy by 2
            have h2 : rh + 1 = lh + 2 := by omega
            have hins0 : insert (node (lh, rh) value nil (node rmd rv rra rrb)) nv =
                balance_and_fix (node (lh, rh + 1) value nil r2) 0 := by
              simp only [insert]
              rw [if_neg (by omega), if_pos (by omega), hrec]
              simp only []
              rw [if_pos (by norm_num), if_neg (by omega)]
            rw [h2] at hins0
            have hHmid : HeightCorrect (node (lh, lh + 2) value nil r2) :=
              ⟨hlh, by rw [hht, ← hrh]; omega, trivial, hHr2⟩
            obtain ⟨u, hu, hHu, hBu, hOu, hhu, hfixu⟩ :=
              balance_heavy_right lh value nil r2 hHmid trivial hBr2 trivial
                (allGt_insert _ _ _ _ _ hrec hAGt hc) trivial hOr2 (hbf2 rfl)
            have hins : insert (node (lh, rh) value nil (node rmd rv rra rrb)) nv =
                some (u, 0) := by
              rw [hins0]
              exact balance_and_fix_of_balance _ _ _ hu hfixu
            refine ⟨_, _, hins, hOu, hHu, hBu, Or.inl rfl, ?_,
              fun h => absurd h (by norm_num), ?_⟩
            · rw [hhu]
              simp only [heightOf_node]
              omega
            · intro hmem
              exact absurd (hdup2 (mem_right_of_gt _ _ _ _ _ hmem hc hALt)).2 (by norm_num)
    · rcases right with _ | ⟨rmd, rv, rra, rrb⟩
      · -- left child present, no right child
        have hrh0 : rh = 0 := by simpa using hrh
        have hl1 : 1 ≤ heightOf (node lmd lv lla llb) := one_le_heightOf_node _ _ _ _ hHl
        have hlh1 : lh = 1 := by omega
        rcases lt_trichotomy nv value with hc | hc | hc
        · -- recurse into the left child
          obtain ⟨l2, incr, hrec, hOl2, hHl2, hBl2, hd01, hht, hbf2, hdup2⟩ :=
            ihl hOl hHl hBl nofun
          rcases hd01 with rfl | rfl
          · -- the left subtree did not grow
            have hins : insert (node (lh, rh) value (node lmd lv lla llb) nil) nv =
                some (node (lh + 0, rh) value l2 nil, 0) := by
              simp only [insert]
              rw [if_pos hc, hrec]
              simp only []
              rw [if_pos (by norm_num), ite_self]
              exact balance_and_fix_of_id (lh + 0) rh value _ _ 0 (by omega) (by omega)
                ⟨by rw [hht, ← hlh], hrh, hHl2, trivial⟩
            refine ⟨_, _, hins, ?_, ?_, ?_, Or.inl rfl, ?_, ?_, ?_⟩
            · exact ⟨allLt_insert _ _ _ _ _ hrec hALt hc, trivial, hOl2, trivial⟩
            · exact ⟨by rw [hht, ← hlh], hrh, hHl2, trivial⟩
            · exact ⟨by rw [abs_le]; constructor <;> omega, hBl2, trivial⟩
            · simp only [heightOf_node]
              omega
            · exact fun h => absurd h (by norm_num)
            · intro hmem
              obtain ⟨hl2eq, -⟩ := hdup2 (mem_left_of_lt _ _ _ _ _ hmem hc hAGt)
              subst hl2eq
              exact ⟨by rw [add_zero], rfl⟩
          · -- the left subtree grew: the node becomes left-heavy by 2
            have h2 : lh + 1 = rh + 2 := by omega
            have hins0 : insert (node (lh, rh) value (node lmd lv lla llb) nil) nv =
                balance_and_fix (node (lh + 1, rh) value l2 nil) 0 := by
              simp only [insert]
              rw [if_pos hc, hrec]
              simp only []
              rw [if_pos (by norm_num), if_neg (by omega)]
            rw [h2] at hins0
            have hHmid : HeightCorrect (node (rh + 2, rh) value l2 nil) :=
              ⟨by rw [hht, ← hlh]; omega, hrh, hHl2, trivial⟩
            obtain ⟨u, hu, hHu, hBu, hOu, hhu, hfixu⟩ :=
              balance_heavy_left rh value l2 nil hHmid hBl2 trivial
                (allLt_insert _ _ _ _ _ hrec hALt hc) trivial hOl2 trivial (hbf2 rfl)
            have hins : insert (node (lh, rh) value (node lmd lv lla llb) nil) nv =
                some (u, 0) := by
              rw [hins0]
              exact balance_and_fix_of_balance _ _ _ hu hfixu
            refine ⟨_, _, hins, hOu, hHu, hBu, Or.inl rfl, ?_,
              fun h => absurd h (by norm_num), ?_⟩
            · rw [hhu]
              simp only [heightOf_node]
              omega
            · intro hmem
              exact absurd (hdup2 (mem_left_of_lt _ _ _ _ _ hmem hc hAGt)).2 (by norm_num)
        · -- internal duplicate
          have hins : insert (node (lh, rh) value (node lmd lv lla llb) nil) nv =
              some (node (lh, rh) value (node lmd lv lla llb) nil, 0) := by
            simp only [insert]
            rw [if_neg (by omega), if_neg (by omega), if_pos hc]
            exact balance_and_fix_of_id lh rh value _ _ 0 (by omega) (by omega)
              ⟨hlh, hrh, hHl, trivial⟩
          exact ⟨_, _, hins, ⟨hALt, trivial, hOl, trivial⟩, ⟨hlh, hrh, hHl, trivial⟩,
            ⟨by rw [abs_le]; constructor <;> omega, hBl, trivial⟩, Or.inl rfl, by omega,
            fun h => absurd h (by norm_num), fun _ => ⟨rfl, rfl⟩⟩
        · -- attach a new right leaf
          have hins : insert (node (lh, rh) value (node lmd lv lla llb) nil) nv =
              some (node (lh, rh + 1) value (node lmd lv lla llb) (node (0, 0) nv nil nil),
                0) := by
            simp only [insert]
            rw [if_neg (by omega), if_pos (by omega), if_pos hrh0, if_neg (by omega)]
            exact balance_and_fix_of_id lh (rh + 1) value _ _ 0 (by omega) (by omega)
              ⟨hlh, by rw [heightOf_leaf]; omega, hHl, heightCorrect_leaf nv⟩
          refine ⟨_, _, hins, ?_, ?_, ?_, Or.inl rfl, ?_, ?_, ?_⟩
          · exact ⟨hALt, ⟨hc, trivial, trivial⟩, hOl, ordered_leaf nv⟩
          · exact ⟨hlh, by rw [heightOf_leaf]; omega, hHl, heightCorrect_leaf nv⟩
          · exact ⟨by rw [abs_le]; constructor <;> omega, hBl, balanced_leaf nv⟩
          · simp only [heightOf_node]
            omega
          · exact fun h => absurd h (by norm_num)
          · intro hmem
            have := mem_right_of_gt _ _ _ _ _ hmem hc hALt
            simp [vals] at this
      · -- both children present
        rcases lt_trichotomy nv value with hc | hc | hc
        · -- recurse into the left child
          obtain ⟨l2, incr, hrec, hOl2, hHl2, hBl2, hd01, hht, hbf2, hdup2⟩ :=
            ihl hOl hHl hBl nofun
          rcases hd01 with rfl | rfl
          · -- the left subtree did not grow
            have hins : insert (node (lh, rh) value (node lmd lv lla llb)
                  (node rmd rv rra rrb)) nv =
                some (node (lh + 0, rh) value l2 (node rmd rv rra rrb), 0) := by
              simp only [insert]
              rw [if_pos hc, hrec]
              simp only []
              rw [if_pos (by norm_num), ite_self]
              exact balance_and_fix_of_id (lh + 0) rh value _ _ 0 (by omega) (by omega)
                ⟨by rw [hht, ← hlh], hrh, hHl2, hHr⟩
            refine ⟨_, _, hins, ?_, ?_, ?_, Or.inl rfl, ?_, ?_, ?_⟩
            · exact ⟨allLt_insert _ _ _ _ _ hrec hALt hc, hAGt, hOl2, hOr⟩
            · exact ⟨by rw [hht, ← hlh], hrh, hHl2, hHr⟩
            · exact ⟨by rw [abs_le]; constructor <;> omega, hBl2, hBr⟩
            · simp only [heightOf_node]
              omega
            · exact fun h => absurd h (by norm_num)
            · intro hmem
              obtain ⟨hl2eq, -⟩ := hdup2 (mem_left_of_lt _ _ _ _ _ hmem hc hAGt)
              subst hl2eq
              exact ⟨by rw [add_zero], rfl⟩
          · -- the left subtree grew
            rcases (by omega : lh = rh + 1 ∨ lh = rh ∨ rh = lh + 1) with h3 | h3 | h3
            · -- now left-heavy by 2: rebalance
              have h2 : lh + 1 = rh + 2 := by omega
              have hins0 : insert (node (lh, rh) value (node lmd lv lla llb)
                    (node rmd rv rra rrb)) nv =
                  balance_and_fix (node (lh + 1, rh) value l2 (node rmd rv rra rrb)) 0 := by
                simp only [insert]
                rw [if_pos hc, hrec]
                simp only []
                rw [if_pos (by norm_num), if_neg (by omega)]
              rw [h2] at hins0
              have hHmid : HeightCorrect (node (rh + 2, rh) value l2 (node rmd rv rra rrb)) :=
                ⟨by rw [hht, ← hlh]; omega, hrh, hHl2, hHr⟩
              obtain ⟨u, hu, hHu, hBu, hOu, hhu, hfixu⟩ :=
                balance_heavy_left rh value l2 (node rmd rv rra rrb) hHmid hBl2 hBr
                  (allLt_insert _ _ _ _ _ hrec hALt hc) hAGt hOl2 hOr (hbf2 rfl)
              have hins : insert (node (lh, rh) value (node lmd lv lla llb)
                    (node rmd rv rra rrb)) nv = some (u, 0) := by
                rw [hins0]
                exact balance_and_fix_of_balance _ _ _ hu hfixu
              refine ⟨_, _, hins, hOu, hHu, hBu, Or.inl rfl, ?_,
                fun h => absurd h (by norm_num), ?_⟩
              · rw [hhu]
                simp only [heightOf_node]
                omega
              · intro hmem
                exact absurd (hdup2 (mem_left_of_lt _ _ _ _ _ hmem hc hAGt)).2 (by norm_num)
            · -- the node was even: it becomes left-heavy by 1 and grows
              have hins : insert (node (lh, rh) value (node lmd lv lla llb)
                    (node rmd rv rra rrb)) nv =
                  some (node (lh + 1, rh) value l2 (node rmd rv rra rrb), 1) := by
                simp only [insert]
                rw [if_pos hc, hrec]
                simp only []
                rw [if_pos (by norm_num), if_pos (by omega)]
                exact balance_and_fix_of_id (lh + 1) rh value _ _ 1 (by omega) (by omega)
                  ⟨by rw [hht, ← hlh], hrh, hHl2, hHr⟩
              refine ⟨_, _, hins, ?_, ?_, ?_, Or.inr rfl, ?_, ?_, ?_⟩
              · exact ⟨allLt_insert _ _ _ _ _ hrec hALt hc, hAGt, hOl2, hOr⟩
              · exact ⟨by rw [hht, ← hlh], hrh, hHl2, hHr⟩
              · exact ⟨by rw [abs_le]; constructor <;> omega, hBl2, hBr⟩
              · simp only [heightOf_node]
                omega
              · intro _
                simp only [bf]
                omega
              · intro hmem
                exact absurd (hdup2 (mem_left_of_lt _ _ _ _ _ hmem hc hAGt)).2 (by norm_num)
            · -- the node was right-heavy: it becomes even, no growth
              have hins : insert (node (lh, rh) value (node lmd lv lla llb)
                    (node rmd rv rra rrb)) nv =
                  some (node (lh + 1, rh) value l2 (node rmd rv rra rrb), 0) := by
                simp only [insert]
                rw [if_pos hc, hrec]
                simp only []
                rw [if_pos (by norm_num), if_neg (by omega)]
                exact balance_and_fix_of_id (lh + 1) rh value _ _ 0 (by omega) (by omega)
                  ⟨by rw [hht, ← hlh], hrh, hHl2, hHr⟩
              refine ⟨_, _, hins, ?_, ?_, ?_, Or.inl rfl, ?_, ?_, ?_⟩
              · exact ⟨allLt_insert _ _ _ _ _ hrec hALt hc, hAGt, hOl2, hOr⟩
              · exact ⟨by rw [hht, ← hlh], hrh, hHl2, hHr⟩
              · exact ⟨by rw [abs_le]; constructor <;> omega, hBl2, hBr⟩
              · simp only [heightOf_node]
                omega
              · exact fun h => absurd h (by norm_num)
              · intro hmem
                exact absurd (hdup2 (mem_left_of_lt _ _ _ _ _ hmem hc hAGt)).2 (by norm_num)
        · -- internal duplicate
          have hins : insert (node (lh, rh) value (node lmd lv lla llb)
                (node rmd rv rra rrb)) nv =
              some (node (lh, rh) value (node lmd lv lla llb) (node rmd rv rra rrb), 0) := by
            simp only [insert]
            rw [if_neg (by omega), if_neg (by omega), if_pos hc]
            exact balance_and_fix_of_id lh rh value _ _ 0 (by omega) (by omega)
              ⟨hlh, hrh, hHl, hHr⟩
          exact ⟨_, _, hins, ⟨hALt, hAGt, hOl, hOr⟩, ⟨hlh, hrh, hHl, hHr⟩,
            ⟨by rw [abs_le]; constructor <;> omega, hBl, hBr⟩, Or.inl rfl, by omega,
            fun h => absurd h (by norm_num), fun _ => ⟨rfl, rfl⟩⟩
        · -- recurse into the right child
          obtain ⟨r2, incr, hrec, hOr2, hHr2, hBr2, hd01, hht, hbf2, hdup2⟩ :=
            ihr hOr hHr hBr nofun
          rcases hd01 with rfl | rfl
          · -- the right subtree did not grow
            have hins : insert (node (lh, rh) value (node lmd lv lla llb)
                  (node rmd rv rra rrb)) nv =
                some (node (lh, rh + 0) value (node lmd lv lla llb) r2, 0) := by
              simp only [insert]
              rw [if_neg (by omega), if_pos (by omega), hrec]
              simp only []
              rw [if_pos (by norm_num), ite_self]
              exact balance_and_fix_of_id lh (rh + 0) value _ _ 0 (by omega) (by omega)
                ⟨hlh, by rw [hht, ← hrh], hHl, hHr2⟩
            refine ⟨_, _, hins, ?_, ?_, ?_, Or.inl rfl, ?_, ?_, ?_⟩
            · exact ⟨hALt, allGt_insert _ _ _ _ _ hrec hAGt hc, hOl, hOr2⟩
            · exact ⟨hlh, by rw [hht, ← hrh], hHl, hHr2⟩
            · exact ⟨by rw [abs_le]; constructor <;> omega, hBl, hBr2⟩
            · simp only [heightOf_node]
              omega
            · exact fun h => absurd h (by norm_num)
            · intro hmem
              obtain ⟨hr2eq, -⟩ := hdup2 (mem_right_of_gt _ _ _ _ _ hmem hc hALt)
              subst hr2eq
              exact ⟨by rw [add_zero], rfl⟩
          · -- the right subtree grew
            rcases (by omega : rh = lh + 1 ∨ rh = lh ∨ lh = rh + 1) with h3 | h3 | h3
            · -- now right-heavy by 2: rebalance
              have h2 : rh + 1 = lh + 2 := by omega
              have hins0 : insert (node (lh, rh) value (node lmd lv lla llb)
                    (node rmd rv rra rrb)) nv =
                  balance_and_fix (node (lh, rh + 1) value (node lmd lv lla llb) r2) 0 := by
                simp only [insert]
                rw [if_neg (by omega), if_pos (by omega), hrec]
                simp only []
                rw [if_pos (by norm_num), if_neg (by omega)]
              rw [h2] at hins0
              have hHmid : HeightCorrect (node (lh, lh + 2) value (node lmd lv lla llb) r2) :=
                ⟨hlh, by rw [hht, ← hrh]; omega, hHl, hHr2⟩
              obtain ⟨u, hu, hHu, hBu, hOu, hhu, hfixu⟩ :=
                balance_heavy_right lh value (node lmd lv lla llb) r2 hHmid hBl hBr2
                  hALt (allGt_insert _ _ _ _ _ hrec hAGt hc) hOl hOr2 (hbf2 rfl)
              have hins : insert (node (lh, rh) value (node lmd lv lla llb)
                    (node rmd rv rra rrb)) nv = some (u, 0) := by
                rw [hins0]
                exact balance_and_fix_of_balance _ _ _ hu hfixu
              refine ⟨_, _, hins, hOu, hHu, hBu, Or.inl rfl, ?_,
                fun h => absurd h (by norm_num), ?_⟩
              · rw [hhu]
                simp only [heightOf_node]
                omega
              · intro hmem
                exact absurd (hdup2 (mem_right_of_gt _ _ _ _ _ hmem hc hALt)).2 (by norm_num)
            · -- the node was even: it becomes right-heavy by 1 and grows
              have hins : insert (node (lh, rh) value (node lmd lv lla llb)
                    (node rmd rv rra rrb)) nv =
                  some (node (lh, rh + 1) value (node lmd lv lla llb) r2, 1) := by
                simp only [insert]
                rw [if_neg (by omega), if_pos (by omega), hrec]
                simp only []
                rw [if_pos (by norm_num), if_pos (by omega)]
                exact balance_and_fix_of_id lh (rh + 1) value _ _ 1 (by omega) (by omega)
                  ⟨hlh, by rw [hht, ← hrh], hHl, hHr2⟩
              refine ⟨_, _, hins, ?_, ?_, ?_, Or.inr rfl, ?_, ?_, ?_⟩
              · exact ⟨hALt, allGt_insert _ _ _ _ _ hrec hAGt hc, hOl, hOr2⟩
              · exact ⟨hlh, by rw [hht, ← hrh], hHl, hHr2⟩
              · exact ⟨by rw [abs_le]; constructor <;> omega, hBl, hBr2⟩
              · simp only [heightOf_node]
                omega
              · intro _
                simp only [bf]
                omega
              · intro hmem
                exact absurd (hdup2 (mem_right_of_gt _ _ _ _ _ hmem hc hALt)).2 (by norm_num)
            · -- the node was left-heavy: it becomes even, no growth
              have hins : insert (node (lh, rh) value (node lmd lv lla llb)
                    (node rmd rv rra rrb)) nv =
                  some (node (lh, rh + 1) value (node lmd lv lla llb) r2, 0) := by
                simp only [insert]
                rw [if_neg (by omega), if_pos (by omega), hrec]
                simp only []
                rw [if_pos (by norm_num), if_neg (by omega)]
                exact balance_and_fix_of_id lh (rh + 1) value _ _ 0 (by omega) (by omega)
                  ⟨hlh, by rw [hht, ← hrh], hHl, hHr2⟩
              refine ⟨_, _, hins, ?_, ?_, ?_, Or.inl rfl, ?_, ?_, ?_⟩
              · exact ⟨hALt, allGt_insert _ _ _ _ _ hrec hAGt hc, hOl, hOr2⟩
              · exact ⟨hlh, by rw [hht, ← hrh], hHl, hHr2⟩
              · exact ⟨by rw [abs_le]; constructor <;> omega, hBl, hBr2⟩
              · simp only [heightOf_node]
                omega
              · exact fun h => absurd h (by norm_num)
              · intro hmem
                exact absurd (hdup2 (mem_right_of_gt _ _ _ _ _ hmem hc hALt)).2 (by norm_num)

/-- On a height-correct tree the stored metadata height coincides with the
recursively computed height. -/
theorem heightOf_eq_realHeight (t : BinaryTree) (h : HeightCorrect t) :
    heightOf t = realHeight t := by
  induction t with
  | nil => rfl
  | node md v l r ihl ihr =>
    obtain ⟨lh, rh⟩ := md
    obtain ⟨h1, h2, hl, hr⟩ := h
    simp only [heightOf_node, realHeight]
    rw [h1, h2, ihl hl, ihr hr]

/-! ## The claims -/

/-- C1: for every tree satisfying the four tree-wide invariants and every
value `v`, `insert v` completes and the ordering invariant holds on the
result: at every node, every value in the left subtree is strictly smaller
and every value in the right subtree strictly greater than the node's value
(`Ordered`; see `allLt_iff`/`allGt_iff` for the value-set reading). -/
theorem c1_insert_preserves_ordering (t : BinaryTree) (v : Int)
    (hO : Ordered t) (_hU : Uniqueness t) (hH : HeightCorrect t) (hB : Balanced t)
    (hne : t ≠ nil) :
    ∃ t' d, insert t v = some (t', d) ∧ Ordered t' := by
  obtain ⟨t', d, h1, h2, -⟩ := insert_master t v hO hH hB hne
  exact ⟨t', d, h1, h2⟩

/-- C2: for every tree satisfying the four tree-wide invariants and every
value `v`, `insert v` completes and the balance invariant
`|leftHeight - rightHeight| ≤ 1` holds at every node of the result. -/
theorem c2_insert_preserves_balance (t : BinaryTree) (v : Int)
    (hO : Ordered t) (_hU : Uniqueness t) (hH : HeightCorrect t) (hB : Balanced t)
    (hne : t ≠ nil) :
    ∃ t' d, insert t v = some (t', d) ∧ Balanced t' := by
  obtain ⟨t', d, h1, -, -, h2, -⟩ := insert_master t v hO hH hB hne
  exact ⟨t', d, h1, h2⟩

/-- C3: for every tree satisfying the four tree-wide invariants and every
value `v`, `insert v` completes and the height-correctness invariant holds
at every node of the result: `leftHeight` is 0 without a left child and
`1 + max` of the left child's stored heights otherwise, symmetrically on
the right. -/
theorem c3_insert_preserves_height_correctness (t : BinaryTree) (v : Int)
    (hO : Ordered t) (_hU : Uniqueness t) (hH : HeightCorrect t) (hB : Balanced t)
    (hne : t ≠ nil) :
    ∃ t' d, insert t v = some (t', d) ∧ HeightCorrect t' := by
  obtain ⟨t', d, h1, -, h2, -⟩ := insert_master t v hO hH hB hne
  exact ⟨t', d, h1, h2⟩

/-- C4: inserting a value already stored in an invariant-satisfying tree is
a no-op returning 0 — the resulting tree is the very same value (same
shape, values and height metadata); consequently inserting the same value
twice yields the tree obtained by inserting it once.  Both duplicate paths
(leaf early-return and internal fall-through) are instances of the first
conjunct. -/
theorem c4_duplicate_insert_is_noop (t : BinaryTree) (v : Int)
    (hO : Ordered t) (_hU : Uniqueness t) (hH : HeightCorrect t) (hB : Balanced t)
    (hne : t ≠ nil) :
    (v ∈ vals t → insert t v = some (t, 0)) ∧
    (∀ t1 d, insert t v = some (t1, d) → insert t1 v = some (t1, 0)) := by
  obtain ⟨t', d, h1, hO', hH', hB', -, hht, -, hdup⟩ := insert_master t v hO hH hB hne
  constructor
  · intro hmem
    obtain ⟨rfl, rfl⟩ := hdup hmem
    exact h1
  · intro t1 d1 h
    rw [h1, Option.some.injEq, Prod.mk.injEq] at h
    obtain ⟨rfl, rfl⟩ := h
    have hmem : v ∈ vals t' := by
      rw [vals_insert _ _ _ _ h1]
      simp
    have hne' : t' ≠ nil := by
      intro hn
      rw [hn] at hmem
      simp [vals] at hmem
    obtain ⟨t'', d'', h1', -, -, -, -, -, -, hdup'⟩ := insert_master t' v hO' hH' hB' hne'
    obtain ⟨rfl, rfl⟩ := hdup' hmem
    exact h1'

/-- C5: on an invariant-satisfying tree, `insert` completes with a delta in
`{0, 1}` which is 1 exactly when the height of the subtree after
rebalancing differs from its height before the insertion. -/
theorem c5_height_delta_contract (t : BinaryTree) (v : Int)
    (hO : Ordered t) (_hU : Uniqueness t) (hH : HeightCorrect t) (hB : Balanced t)
    (hne : t ≠ nil) :
    ∃ t' d, insert t v = some (t', d) ∧ (d = 0 ∨ d = 1) ∧
      (d = 1 ↔ realHeight t' ≠ realHeight t) := by
  obtain ⟨t', d, h1, -, hH', -, hd01, hht, -⟩ := insert_master t v hO hH hB hne
  refine ⟨t', d, h1, hd01, ?_⟩
  rw [← heightOf_eq_realHeight t hH, ← heightOf_eq_realHeight t' hH']
  constructor
  · intro h
    omega
  · intro h
    omega

/-- C6: on an invariant-satisfying tree, `insert` never hits an
internal-consistency abort: the balance-difference asserts, the `incr < 2`
asserts, the zero-height asserts on the new-leaf paths, the `unreachable!`
arms and the `unwrap()`s inside the rotations are all modelled as `none`,
so completion (`= some _`) states that none of them fires. -/
theorem c6_insert_never_aborts (t : BinaryTree) (v : Int)
    (hO : Ordered t) (_hU : Uniqueness t) (hH : HeightCorrect t) (hB : Balanced t)
    (hne : t ≠ nil) :
    ∃ p, insert t v = some p := by
  obtain ⟨t', d, h1, -⟩ := insert_master t v hO hH hB hne
  exact ⟨(t', d), h1⟩

/-- C7: inserting 20 then 30 into the single-node tree holding 10 forces
the single left rotation at the root and yields the tree rooted at 20 with
children 10 and 30, heights `(0,0)` on both children and `(1,1)` at the
root; inserting 10 then 20 into the single-node tree holding 30 goes
through the Left-Right double rotation and yields the identical tree. -/
theorem c7_rotation_scenarios :
    ((insert (node (0, 0) 10 nil nil) 20).bind fun p => insert p.1 30) =
      some (node (1, 1) 20 (node (0, 0) 10 nil nil) (node (0, 0) 30 nil nil), 0) ∧
    ((insert (node (0, 0) 30 nil nil) 10).bind fun p => insert p.1 20) =
      some (node (1, 1) 20 (node (0, 0) 10 nil nil) (node (0, 0) 30 nil nil), 0) := by
  constructor <;> decide

/-- C8: `rotate_left` on any node with a right child promotes the right
child, makes the original node the promoted node's left child, hands the
promoted node's former left subtree to the original node as its new right
subtree, and keeps every other subtree and every value in place; the
displaced node's metadata `md1` is recomputed first and the promoted
node's metadata `md2` is computed from it.  `rotate_right` is the exact
mirror image. -/
theorem c8_rotation_structure :
    (∀ (md : Int × Int) (v : Int) (l : BinaryTree) (rmd : Int × Int) (rv : Int)
        (rl rr : BinaryTree), ∃ md1 md2 : Int × Int,
      rotate_left (node md v l (node rmd rv rl rr)) =
        some (node md2 rv (node md1 v l rl) rr) ∧
      md1 = (heightOf l, heightOf rl) ∧
      md2 = (max md1.1 md1.2 + 1, heightOf rr)) ∧
    (∀ (md : Int × Int) (v : Int) (lmd : Int × Int) (lv : Int) (ll lr : BinaryTree)
        (r : BinaryTree), ∃ md1 md2 : Int × Int,
      rotate_right (node md v (node lmd lv ll lr) r) =
        some (node md2 lv ll (node md1 v lr r)) ∧
      md1 = (heightOf lr, heightOf r) ∧
      md2 = (heightOf ll, max md1.1 md1.2 + 1)) := by
  constructor
  · intro md v l rmd rv rl rr
    exact ⟨(heightOf l, heightOf rl), _, rotate_left_node md rmd v rv l rl rr, rfl, rfl⟩
  · intro md v lmd lv ll lr r
    exact ⟨(heightOf lr, heightOf r), _, rotate_right_node md lmd v lv ll lr r, rfl, rfl⟩

/-- C9: on an invariant-satisfying tree, inserting a not-yet-present value
increases the number of distinct stored values by exactly 1, and inserting
an already-present value leaves it unchanged. -/
theorem c9_size_monotonicity (t : BinaryTree) (v : Int)
    (hO : Ordered t) (_hU : Uniqueness t) (hH : HeightCorrect t) (hB : Balanced t)
    (hne : t ≠ nil) :
    ∃ t' d, insert t v = some (t', d) ∧
      (v ∉ vals t → (vals t').card = (vals t).card + 1) ∧
      (v ∈ vals t → (vals t').card = (vals t).card) := by
  obtain ⟨t', d, h1, -⟩ := insert_master t v hO hH hB hne
  have hv := vals_insert _ _ _ _ h1
  rw [← Finset.insert_eq] at hv
  refine ⟨t', d, h1, ?_, ?_⟩
  · intro hmem
    rw [hv, Finset.card_insert_of_not_mem hmem]
  · intro hmem
    rw [hv, Finset.insert_eq_self.mpr hmem]

/-- C10: whenever `insert v` completes on any tree, the resulting value set
is the old set together with `v` — nothing is lost or duplicated and the
rotation placeholder's value never leaks into the tree — and a tree (a
non-`nil` `BinaryTree`, the image of the Rust struct, which has no empty
representation) always stores at least one value. -/
theorem c10_insert_value_set :
    (∀ (t : BinaryTree) (v : Int) (t' : BinaryTree) (d : Int),
      insert t v = some (t', d) → vals t' = {v} ∪ vals t) ∧
    (∀ u : BinaryTree, u ≠ nil → (vals u).Nonempty) := by
  constructor
  · exact fun t v t' d h => vals_insert t v t' d h
  · intro u hu
    rcases u with _ | ⟨md, v, l, r⟩
    · exact absurd rfl hu
    · exact ⟨v, by simp [vals]⟩

/-! ## Witnesses: the claim theorems applied at a concrete tree -/

theorem sampleTree_ordered : Ordered sampleTree := by
  simp [sampleTree, Ordered, AllLt, AllGt]

theorem sampleTree_uniqueness : Uniqueness sampleTree := by
  show (valsM sampleTree).Nodup
  decide

theorem sampleTree_heightCorrect : HeightCorrect sampleTree := by
  refine ⟨?_, ?_, heightCorrect_leaf 10, heightCorrect_leaf 30⟩ <;> rw [heightOf_leaf]

theorem sampleTree_balanced : Balanced sampleTree :=
  ⟨by decide, balanced_leaf 10, balanced_leaf 30⟩

theorem c1_witness :
    ∃ t' d, insert sampleTree 25 = some (t', d) ∧ Ordered t' :=
  c1_insert_preserves_ordering sampleTree 25 sampleTree_ordered sampleTree_uniqueness
    sampleTree_heightCorrect sampleTree_balanced (by decide)

theorem c2_witness :
    ∃ t' d, insert sampleTree 25 = some (t', d) ∧ Balanced t' :=
  c2_insert_preserves_balance sampleTree 25 sampleTree_ordered sampleTree_uniqueness
    sampleTree_heightCorrect sampleTree_balanced (by decide)

theorem c3_witness :
    ∃ t' d, insert sampleTree 25 = some (t', d) ∧ HeightCorrect t' :=
  c3_insert_preserves_height_correctness sampleTree 25 sampleTree_ordered
    sampleTree_uniqueness sampleTree_heightCorrect sampleTree_balanced (by decide)

theorem c4_witness : insert sampleTree 10 = some (sampleTree, 0) :=
  (c4_duplicate_insert_is_noop sampleTree 10 sampleTree_ordered sampleTree_uniqueness
    sampleTree_heightCorrect sampleTree_balanced (by decide)).1 (by decide)

theorem c5_witness :
    ∃ t' d, insert sampleTree 25 = some (t', d) ∧ (d = 0 ∨ d = 1) ∧
      (d = 1 ↔ realHeight t' ≠ realHeight sampleTree) :=
  c5_height_delta_contract sampleTree 25 sampleTree_ordered sampleTree_uniqueness
    sampleTree_heightCorrect sampleTree_balanced (by decide)

theorem c6_witness : ∃ p, insert sampleTree 25 = some p :=
  c6_insert_never_aborts sampleTree 25 sampleTree_ordered sampleTree_uniqueness
    sampleTree_heightCorrect sampleTree_balanced (by decide)

theorem c9_witness :
    ∃ t' d, insert sampleTree 25 = some (t', d) ∧
      (25 ∉ vals sampleTree → (vals t').card = (vals sampleTree).card + 1) ∧
      (25 ∈ vals sampleTree → (vals t').card = (vals sampleTree).card) :=
  c9_size_monotonicity sampleTree 25 sampleTree_ordered sampleTree_uniqueness
    sampleTree_heightCorrect sampleTree_balanced (by decide)

theorem c10_witness :
    vals (node (0, 1) 5 nil (node (0, 0) 7 nil nil)) = {7} ∪ vals (node (0, 0) 5 nil nil) ∧
    (vals sampleTree).Nonempty :=
  ⟨c10_insert_value_set.1 (node (0, 0) 5 nil nil) 7 (node (0, 1) 5 nil (node (0, 0) 7 nil nil))
      1 (by decide),
    c10_insert_value_set.2 sampleTree (by decide)⟩

end BinaryTree

end Avl
